import Mathlib

/-!
Shallow embedding of `src/Frontend.py`, the TF-IDF search engine core:
tokenizer (`clean_text`), index construction (`create_index`) and ranking
(`rank_query`).  Python floats are modelled by real numbers, Python dicts
(which preserve insertion order) by association lists, and Python strings by
`List Char`.  Document texts are already-read strings: the file-system walk in
`create_index` is I/O glue, so the embedding takes the sorted list of
`(filename, contents)` pairs directly.
-/

namespace Frontend

/-- A term: a normalized token, i.e. a word as a list of characters. -/
abbrev Term := List Char

/-- Characters kept by the regex class `[a-z0-9]` (code points 97..122 and
48..57), i.e. the characters of `[^a-z0-9\s]` that are not whitespace. -/
def keepChar (c : Char) : Bool :=
  (97 ≤ c.toNat && c.toNat ≤ 122) || (48 ≤ c.toNat && c.toNat ≤ 57)

/-- ASCII whitespace, the `\s` class / `str.split()` separators:
space, tab, newline, carriage return, vertical tab, form feed. -/
def isWs (c : Char) : Bool :=
  c.toNat = 32 || c.toNat = 9 || c.toNat = 10 ||
  c.toNat = 13 || c.toNat = 11 || c.toNat = 12

/-- `str.lower()` on a character (ASCII case mapping: `A`..`Z` map to
`a`..`z`, code point + 32; everything else is unchanged). -/
def pyLower (c : Char) : Char :=
  if 65 ≤ c.toNat && c.toNat ≤ 90 then Char.ofNat (c.toNat + 32) else c

/-- `re.sub(r'[^a-z0-9\s]', ' ', text)` on one character: characters outside
lowercase letters, digits and whitespace become a single space. -/
def substChar (c : Char) : Char :=
  if keepChar c || isWs c then c else ' '

/-- `str.split()`: split on runs of whitespace, discarding empty tokens.
`cur` accumulates the current word in reverse. -/
def splitWsAux : List Char → List Char → List (List Char)
  | cur, [] => if cur = [] then [] else [cur.reverse]
  | cur, c :: cs =>
      if isWs c then
        (if cur = [] then splitWsAux [] cs else cur.reverse :: splitWsAux [] cs)
      else
        splitWsAux (c :: cur) cs

/-- `clean_text` (Frontend.py lines 8-11): lowercase, replace characters
outside `[a-z0-9\s]` with a space, split into words. -/
def clean_text (text : List Char) : List Term :=
  splitWsAux [] ((text.map pyLower).map substChar)

/-- `" ".join(tokens)`: the space-join of a token list (the inverse
direction used in the tokenizer idempotence property). -/
def joinSpace : List (List Char) → List Char
  | [] => []
  | [t] => t
  | t :: t' :: ts => t ++ ' ' :: joinSpace (t' :: ts)

/-- Dictionary lookup on an association list (`d[k]` / `k in d`). -/
def alookup {κ α : Type} [DecidableEq κ] : List (κ × α) → κ → Option α
  | [], _ => none
  | (k, v) :: rest, k' => if k' = k then some v else alookup rest k'

/-- One step of `collections.Counter`: increment the count of `t`, inserting
it at the end (Python dicts preserve insertion order) with count 1 if absent. -/
def countInc : List (Term × ℕ) → Term → List (Term × ℕ)
  | [], t => [(t, 1)]
  | (t', n) :: rest, t =>
      if t = t' then (t', n + 1) :: rest else (t', n) :: countInc rest t

/-- `Counter(words)`: term frequencies in first-occurrence order. -/
def counter (ws : List Term) : List (Term × ℕ) := ws.foldl countInc []

/-- An inverted-index entry `[document_frequency, postings]` where a posting
is a `(doc_id, weight)` pair. -/
abbrev Entry := ℕ × List (ℕ × ℝ)

/-- The inverted index: term → entry, in first-insertion order. -/
abbrev Index := List (Term × Entry)

/-- Frontend.py lines 41-44: if the term is absent initialize its entry to
`[0, []]`; then increment the document frequency and append the posting. -/
def updateEntry : Index → Term → ℕ → ℝ → Index
  | [], t, docId, w => [(t, (1, [(docId, w)]))]
  | (t', e) :: rest, t, docId, w =>
      if t = t' then (t', (e.1 + 1, e.2 ++ [(docId, w)])) :: rest
      else (t', e) :: updateEntry rest t docId w

/-- Frontend.py lines 36-44: index one document — count term frequencies,
then for each distinct term insert the posting `(doc_id, 1 + log10 tf)`. -/
noncomputable def indexDoc (ix : Index) (docId : ℕ) (words : List Term) : Index :=
  (counter words).foldl
    (fun ix p => updateEntry ix p.1 docId (1 + Real.logb 10 (p.2 : ℝ))) ix

/-- `d[k] = d.get(k, 0) + x` (also `defaultdict(float)`'s `d[k] += x`). -/
def bump : List (ℕ × ℝ) → ℕ → ℝ → List (ℕ × ℝ)
  | [], d, x => [(d, 0 + x)]
  | (d', v) :: rest, d, x =>
      if d = d' then (d', v + x) :: rest else (d', v) :: bump rest d x

/-- Frontend.py lines 47-49: accumulate `weight ** 2` per document over all
postings of all index entries, in index order. -/
noncomputable def sumSquares (ix : Index) : List (ℕ × ℝ) :=
  ix.foldl (fun dl e => e.2.2.foldl (fun dl p => bump dl p.1 (p.2 ^ 2)) dl) []

/-- The bundle returned by `create_index` (Frontend.py line 54). -/
structure IndexBundle where
  index : Index
  doc_lengths : List (ℕ × ℝ)
  doc_map : List (ℕ × String)
  N : ℕ

/-- `create_index` (Frontend.py lines 14-54) over the already-read corpus:
an ordered list of `(filename, contents)` pairs, sorted by filename as
`sorted(os.listdir(...))` produces it.  Document ids are 1-based positions. -/
noncomputable def create_index (corpus : List (String × List Char)) : IndexBundle :=
  { index := corpus.enum.foldl
      (fun ix p => indexDoc ix (p.1 + 1) (clean_text p.2.2)) [],
    doc_lengths := (sumSquares (corpus.enum.foldl
      (fun ix p => indexDoc ix (p.1 + 1) (clean_text p.2.2)) [])).map
        (fun p => (p.1, Real.sqrt p.2)),
    doc_map := corpus.enum.map (fun p => (p.1 + 1, p.2.1)),
    N := corpus.length }

/-- Frontend.py lines 65-71: the raw query vector — for each distinct query
term present in the index, `(1 + log10 tf) * log10 (N / df)`. -/
noncomputable def q_weights0 (query : List Char) (ix : Index) (N : ℕ) :
    List (Term × ℝ) :=
  (counter (clean_text query)).filterMap (fun p =>
    match alookup ix p.1 with
    | none => none
    | some e =>
        some (p.1, (1 + Real.logb 10 (p.2 : ℝ)) * Real.logb 10 ((N : ℝ) / (e.1 : ℝ))))

/-- Frontend.py line 74: Euclidean norm of the query vector. -/
noncomputable def qnorm (qw : List (Term × ℝ)) : ℝ :=
  Real.sqrt ((qw.map (fun p => p.2 ^ 2)).sum)

open Classical in
/-- Frontend.py lines 75-76: divide by the norm when it is positive. -/
noncomputable def normalizeQ (qw : List (Term × ℝ)) : List (Term × ℝ) :=
  if 0 < qnorm qw then qw.map (fun p => (p.1, p.2 / qnorm qw)) else qw

/-- Frontend.py lines 79-82: accumulate
`scores[doc_id] += q_w * (d_w / doc_lengths[doc_id])` over the postings of
every query term.  A missing `doc_lengths` key would raise `KeyError` in
Python; the embedding reads 0 there, and `doc_lengths_pos` below shows the
key is always present and positive on bundles built by `create_index`.
(A query term is only in `q_weights` if it is in the index, so the inner
`alookup` never falls to its `none` branch either.) -/
noncomputable def scoresOf (qw : List (Term × ℝ)) (ix : Index)
    (dl : List (ℕ × ℝ)) : List (ℕ × ℝ) :=
  qw.foldl (fun sc p =>
    match alookup ix p.1 with
    | none => sc
    | some e => e.2.foldl
        (fun sc q => bump sc q.1 (p.2 * (q.2 / ((alookup dl q.1).getD 0)))) sc) []

/-- The sort order of Frontend.py line 85, `key=lambda x: (-x[1], x[0])`:
higher score first, ties by ascending document id. -/
def rankLE (a b : ℕ × ℝ) : Prop := b.2 < a.2 ∨ (a.2 = b.2 ∧ a.1 ≤ b.1)

noncomputable instance : DecidableRel rankLE := Classical.decRel _

instance : IsTotal (ℕ × ℝ) rankLE where
  total a b := by
    rcases lt_trichotomy a.2 b.2 with h | h | h
    · exact Or.inr (Or.inl h)
    · rcases Nat.le_total a.1 b.1 with h' | h'
      · exact Or.inl (Or.inr ⟨h, h'⟩)
      · exact Or.inr (Or.inr ⟨h.symm, h'⟩)
    · exact Or.inl (Or.inl h)

instance : IsTrans (ℕ × ℝ) rankLE where
  trans a b c hab hbc := by
    rcases hab with h1 | ⟨h1, h1'⟩ <;> rcases hbc with h2 | ⟨h2, h2'⟩
    · exact Or.inl (h2.trans h1)
    · exact Or.inl (h2 ▸ h1)
    · exact Or.inl (h1 ▸ h2)
    · exact Or.inr ⟨h1.trans h2, h1'.trans h2'⟩

/-- Frontend.py line 85: `sorted(scores.items(), key=lambda x: (-x[1], x[0]))`.
Python's `sorted` is a stable sort by this key; since the keys of `scores`
are pairwise-distinct document ids the key function is injective on the
items, so every sort by `rankLE` — stability aside — yields the same list,
and a stable insertion sort models it exactly. -/
noncomputable def rankedScores (query : List Char) (ix : Index)
    (dl : List (ℕ × ℝ)) (N : ℕ) : List (ℕ × ℝ) :=
  List.insertionSort rankLE (scoresOf (normalizeQ (q_weights0 query ix N)) ix dl)

/-- `rank_query` (Frontend.py lines 57-88): rank documents for a query and
return the `top_k` best as `(filename, score)` pairs.  A missing `doc_map`
key would raise `KeyError`; the embedding reads `""` there, and every
document id in a `create_index` bundle's scores is in its `doc_map`. -/
noncomputable def rank_query (query : List Char) (ix : Index)
    (dl : List (ℕ × ℝ)) (dm : List (ℕ × String)) (N : ℕ) (top_k : ℕ) :
    List (String × ℝ) :=
  ((rankedScores query ix dl N).take top_k).map
    (fun p => ((alookup dm p.1).getD "", p.2))

/-- The strict version of `rankLE`: the total order `(-score, doc_id)` on
pairs with distinct document ids. -/
def rankLT (a b : ℕ × ℝ) : Prop := b.2 < a.2 ∨ (a.2 = b.2 ∧ a.1 < b.1)

/-- Document `d` occurs in some postings list of the index. -/
def docOccurs (ix : Index) (d : ℕ) : Prop :=
  ∃ e ∈ ix, ∃ p ∈ e.2.2, p.1 = d

/-- Well-formedness of one index entry, for document ids up to `bound`:
the stored document frequency is the length of the postings list, the list is
nonempty, its document ids are strictly increasing and lie in `1..bound`,
and every weight is at least 1. -/
def EntryInv (bound : ℕ) (e : Term × Entry) : Prop :=
  e.2.1 = e.2.2.length ∧ e.2.2 ≠ [] ∧
  List.Chain' (fun p q : ℕ × ℝ => p.1 < q.1) e.2.2 ∧
  ∀ p ∈ e.2.2, (1 ≤ p.1 ∧ p.1 ≤ bound) ∧ 1 ≤ p.2

/-- Well-formedness of the whole index after documents `1..bound`. -/
def IndexInv (bound : ℕ) (ix : Index) : Prop :=
  ∀ e ∈ ix, EntryInv bound e

/-- Intermediate invariant while document `docId` is being indexed: every
entry is well formed for bound `docId`, and entries whose term is still in
the to-do list `R` have no posting for `docId` yet (their ids are at most
`prev`, the previous document id bound). -/
def MidInv (prev docId : ℕ) (R : List Term) (ix : Index) : Prop :=
  ∀ e ∈ ix, EntryInv docId e ∧ (e.1 ∈ R → ∀ p ∈ e.2.2, p.1 ≤ prev)

/-- The spec's concrete scenario corpus: doc1 = "the cat sat",
doc2 = "the dog sat", doc3 = "cat dog cat", in sorted filename order. -/
def corpusCats : List (String × List Char) :=
  [("doc1", "the cat sat".data), ("doc2", "the dog sat".data),
   ("doc3", "cat dog cat".data)]

/-- A one-document corpus whose single document is the word "a". -/
def corpusA : List (String × List Char) := [("d1", ['a'])]

/-- A one-document corpus whose single document is empty (zero tokens). -/
def corpusEmptyDoc : List (String × List Char) := [("empty", [])]

/-! ### Association-list lemmas -/

theorem alookup_mem {κ α : Type} [DecidableEq κ] {l : List (κ × α)} {k : κ} {v : α}
    (h : alookup l k = some v) : (k, v) ∈ l := by
  induction l with
  | nil => simp [alookup] at h
  | cons hd tl ih =>
    obtain ⟨k', v'⟩ := hd
    by_cases hk : k = k'
    · subst hk
      rw [alookup, if_pos rfl] at h
      injection h with h
      rw [← h]
      exact List.mem_cons_self _ _
    · rw [alookup, if_neg hk] at h
      exact List.mem_cons_of_mem _ (ih h)

theorem alookup_isSome {κ α : Type} [DecidableEq κ] {l : List (κ × α)} {k : κ} :
    (alookup l k).isSome ↔ k ∈ l.map Prod.fst := by
  induction l with
  | nil => simp [alookup]
  | cons hd tl ih =>
    obtain ⟨k', v'⟩ := hd
    by_cases hk : k = k'
    · subst hk
      simp [alookup]
    · simp [alookup, hk, ih]

theorem alookup_map_snd {κ α β : Type} [DecidableEq κ] (f : α → β)
    (l : List (κ × α)) (k : κ) :
    alookup (l.map (fun p => (p.1, f p.2))) k = (alookup l k).map f := by
  induction l with
  | nil => simp [alookup]
  | cons hd tl ih =>
    obtain ⟨k', v'⟩ := hd
    by_cases hk : k = k'
    · subst hk
      simp [alookup]
    · simp [alookup, hk, ih]

/-! ### `bump` lemmas -/

theorem bump_keys (l : List (ℕ × ℝ)) (d : ℕ) (x : ℝ) :
    (bump l d x).map Prod.fst =
      if d ∈ l.map Prod.fst then l.map Prod.fst else l.map Prod.fst ++ [d] := by
  induction l with
  | nil => simp [bump]
  | cons hd tl ih =>
    obtain ⟨d', v'⟩ := hd
    by_cases hd' : d = d'
    · subst hd'
      simp [bump]
    · simp only [bump, if_neg hd', List.map_cons, ih]
      by_cases hmem : d ∈ tl.map Prod.fst
      · simp [hmem, Ne.symm hd', hd']
      · simp [hmem, Ne.symm hd', hd']

theorem bump_keys_nodup {l : List (ℕ × ℝ)} (h : (l.map Prod.fst).Nodup)
    (d : ℕ) (x : ℝ) : ((bump l d x).map Prod.fst).Nodup := by
  rw [bump_keys]
  by_cases hmem : d ∈ l.map Prod.fst
  · simpa [hmem] using h
  · simp [hmem, List.nodup_append, h]

theorem bump_mem_keys {l : List (ℕ × ℝ)} {d' : ℕ} (d : ℕ) (x : ℝ) :
    d' ∈ (bump l d x).map Prod.fst ↔ d' = d ∨ d' ∈ l.map Prod.fst := by
  rw [bump_keys]
  by_cases hmem : d ∈ l.map Prod.fst
  · simp only [if_pos hmem]
    constructor
    · exact fun h => Or.inr h
    · rintro (rfl | h) <;> [exact hmem; exact h]
  · simp [hmem, or_comm]

theorem bump_values_nonneg {l : List (ℕ × ℝ)} (h : ∀ p ∈ l, 0 ≤ p.2)
    {x : ℝ} (hx : 0 ≤ x) : ∀ p ∈ bump l d x, 0 ≤ p.2 := by
  induction l with
  | nil =>
    intro p hp
    simp only [bump, List.mem_singleton] at hp
    rw [hp]
    simpa using hx
  | cons hd tl ih =>
    obtain ⟨d', v'⟩ := hd
    by_cases hd' : d = d'
    · subst hd'
      intro p hp
      rw [bump, if_pos rfl] at hp
      rcases List.mem_cons.mp hp with hp | hp
      · rw [hp]
        exact add_nonneg (h _ (List.mem_cons_self _ _)) hx
      · exact h _ (List.mem_cons_of_mem _ hp)
    · intro p hp
      rw [bump, if_neg hd'] at hp
      rcases List.mem_cons.mp hp with hp | hp
      · rw [hp]
        exact h _ (List.mem_cons_self _ _)
      · exact ih (fun q hq => h _ (List.mem_cons_of_mem _ hq)) p hp

theorem bump_values_pos {l : List (ℕ × ℝ)} (h : ∀ p ∈ l, 0 < p.2)
    {x : ℝ} (hx : 0 < x) : ∀ p ∈ bump l d x, 0 < p.2 := by
  induction l with
  | nil =>
    intro p hp
    simp only [bump, List.mem_singleton] at hp
    rw [hp]
    simpa using hx
  | cons hd tl ih =>
    obtain ⟨d', v'⟩ := hd
    by_cases hd' : d = d'
    · subst hd'
      intro p hp
      rw [bump, if_pos rfl] at hp
      rcases List.mem_cons.mp hp with hp | hp
      · rw [hp]
        exact add_pos (h _ (List.mem_cons_self _ _)) hx
      · exact h _ (List.mem_cons_of_mem _ hp)
    · intro p hp
      rw [bump, if_neg hd'] at hp
      rcases List.mem_cons.mp hp with hp | hp
      · rw [hp]
        exact h _ (List.mem_cons_self _ _)
      · exact ih (fun q hq => h _ (List.mem_cons_of_mem _ hq)) p hp

/-! ### `counter` lemmas -/

theorem countInc_pos {l : List (Term × ℕ)} (h : ∀ p ∈ l, 1 ≤ p.2) (t : Term) :
    ∀ p ∈ countInc l t, 1 ≤ p.2 := by
  induction l with
  | nil =>
    intro p hp
    simp only [countInc, List.mem_singleton] at hp
    rw [hp]
  | cons hd tl ih =>
    obtain ⟨t', n⟩ := hd
    by_cases ht : t = t'
    · subst ht
      intro p hp
      rw [countInc, if_pos rfl] at hp
      rcases List.mem_cons.mp hp with hp | hp
      · rw [hp]
        exact le_trans (h _ (List.mem_cons_self _ _)) (Nat.le_succ n)
      · exact h _ (List.mem_cons_of_mem _ hp)
    · intro p hp
      rw [countInc, if_neg ht] at hp
      rcases List.mem_cons.mp hp with hp | hp
      · rw [hp]
        exact h _ (List.mem_cons_self _ _)
      · exact ih (fun q hq => h _ (List.mem_cons_of_mem _ hq)) p hp

theorem counter_foldl_pos :
    ∀ (ws : List Term) (acc : List (Term × ℕ)), (∀ p ∈ acc, 1 ≤ p.2) →
      ∀ p ∈ ws.foldl countInc acc, 1 ≤ p.2
  | [], acc, h => by simpa using h
  | w :: ws, acc, h => counter_foldl_pos ws (countInc acc w) (countInc_pos h w)

theorem counter_pos {ws : List Term} : ∀ p ∈ counter ws, 1 ≤ p.2 :=
  counter_foldl_pos ws [] (by simp)

theorem countInc_keys (l : List (Term × ℕ)) (t : Term) :
    (countInc l t).map Prod.fst =
      if t ∈ l.map Prod.fst then l.map Prod.fst else l.map Prod.fst ++ [t] := by
  induction l with
  | nil => simp [countInc]
  | cons hd tl ih =>
    obtain ⟨t', n⟩ := hd
    by_cases ht : t = t'
    · subst ht
      simp [countInc]
    · simp only [countInc, if_neg ht, List.map_cons, ih]
      by_cases hmem : t ∈ tl.map Prod.fst
      · simp [hmem, Ne.symm ht, ht]
      · simp [hmem, Ne.symm ht, ht]

theorem countInc_keys_nodup {l : List (Term × ℕ)} (h : (l.map Prod.fst).Nodup)
    (t : Term) : ((countInc l t).map Prod.fst).Nodup := by
  rw [countInc_keys]
  by_cases hmem : t ∈ l.map Prod.fst
  · simpa [hmem] using h
  · simp [hmem, List.nodup_append, h]

theorem counter_foldl_keys_nodup :
    ∀ (ws : List Term) (acc : List (Term × ℕ)), (acc.map Prod.fst).Nodup →
      ((ws.foldl countInc acc).map Prod.fst).Nodup
  | [], _, h => by simpa using h
  | w :: ws, acc, h =>
      counter_foldl_keys_nodup ws (countInc acc w) (countInc_keys_nodup h w)

theorem counter_keys_nodup (ws : List Term) : ((counter ws).map Prod.fst).Nodup :=
  counter_foldl_keys_nodup ws [] (by simp)

theorem countInc_fst {l : List (Term × ℕ)} (t : Term) :
    ∀ p ∈ countInc l t, p.1 = t ∨ p.1 ∈ l.map Prod.fst := by
  have h := countInc_keys l t
  intro p hp
  have : p.1 ∈ (countInc l t).map Prod.fst := List.mem_map_of_mem _ hp
  rw [h] at this
  by_cases hmem : t ∈ l.map Prod.fst
  · exact Or.inr (by simpa [hmem] using this)
  · simp only [if_neg hmem, List.mem_append, List.mem_singleton] at this
    exact this.symm.imp id id

theorem counter_foldl_fst :
    ∀ (ws : List Term) (acc : List (Term × ℕ)) (S : List Term),
      (∀ p ∈ acc, p.1 ∈ S) → (∀ w ∈ ws, w ∈ S) →
      ∀ p ∈ ws.foldl countInc acc, p.1 ∈ S
  | [], _, _, hacc, _ => by simpa using hacc
  | w :: ws, acc, S, hacc, hws => by
      refine counter_foldl_fst ws (countInc acc w) S ?_ (fun v hv => hws v (List.mem_cons_of_mem _ hv))
      intro p hp
      rcases countInc_fst w p hp with rfl | hmem
      · exact hws _ (List.mem_cons_self _ _)
      · rcases List.mem_map.mp hmem with ⟨q, hq, hq'⟩
        exact hq' ▸ hacc q hq

theorem counter_fst_mem {ws : List Term} : ∀ p ∈ counter ws, p.1 ∈ ws :=
  counter_foldl_fst ws [] ws (by simp) (fun _ h => h)

/-! ### Index well-formedness -/

theorem entryInv_mono {b b' : ℕ} {e : Term × Entry} (h : EntryInv b e)
    (hb : b ≤ b') : EntryInv b' e := by
  obtain ⟨h1, h2, h3, h4⟩ := h
  exact ⟨h1, h2, h3, fun p hp =>
    ⟨⟨(h4 p hp).1.1, le_trans (h4 p hp).1.2 hb⟩, (h4 p hp).2⟩⟩

theorem IndexInv.toMid {prev docId : ℕ} {ix : Index} (h : IndexInv prev ix)
    (hlt : prev ≤ docId) (R : List Term) : MidInv prev docId R ix := by
  intro e he
  exact ⟨entryInv_mono (h e he) hlt, fun _ p hp => ((h e he).2.2.2 p hp).1.2⟩

theorem MidInv.toIndexInv {prev docId : ℕ} {ix : Index}
    (h : MidInv prev docId [] ix) : IndexInv docId ix :=
  fun e he => (h e he).1

theorem updateEntry_midinv {prev docId : ℕ} {R : List Term} {ix : Index}
    {t : Term} {w : ℝ} (hinv : MidInv prev docId (t :: R) ix)
    (hprev : prev < docId) (hw : 1 ≤ w) (htR : t ∉ R) :
    MidInv prev docId R (updateEntry ix t docId w) := by
  induction ix with
  | nil =>
    intro e he
    simp only [updateEntry, List.mem_singleton] at he
    rw [he]
    refine ⟨⟨by simp, by simp, by simp, ?_⟩, fun hmem => absurd hmem htR⟩
    intro p hp
    simp only [List.mem_singleton] at hp
    rw [hp]
    exact ⟨⟨Nat.one_le_iff_ne_zero.mpr (by omega), le_refl _⟩, hw⟩
  | cons hd tl ih =>
    obtain ⟨t', e'⟩ := hd
    have hhd := hinv _ (List.mem_cons_self _ _)
    by_cases ht : t = t'
    · subst ht
      intro e he
      rw [updateEntry, if_pos rfl] at he
      rcases List.mem_cons.mp he with he | he
      · rw [he]
        obtain ⟨⟨hdf, hne, hch, hbd⟩, hR⟩ := hhd
        have hold : ∀ p ∈ e'.2, p.1 ≤ prev := hR (List.mem_cons_self _ _)
        have hdf' : e'.1 = e'.2.length := hdf
        refine ⟨⟨?_, by simp, ?_, ?_⟩, fun hmem => absurd hmem htR⟩
        · simp [hdf']
        · rw [List.chain'_append]
          refine ⟨hch, List.chain'_singleton _, ?_⟩
          intro x hx y hy
          simp only [List.head?_cons, Option.mem_def, Option.some.injEq] at hy
          have hxmem := List.mem_of_mem_getLast? hx
          rw [← hy]
          exact lt_of_le_of_lt (hold x hxmem) hprev
        · intro p hp
          rcases List.mem_append.mp hp with hp | hp
          · exact hbd p hp
          · simp only [List.mem_singleton] at hp
            rw [hp]
            exact ⟨⟨Nat.one_le_iff_ne_zero.mpr (by omega), le_refl _⟩, hw⟩
      · have htl := hinv _ (List.mem_cons_of_mem _ he)
        exact ⟨htl.1, fun hmem => htl.2 (List.mem_cons_of_mem _ hmem)⟩
    · intro e he
      rw [updateEntry, if_neg ht] at he
      rcases List.mem_cons.mp he with he | he
      · rw [he]
        exact ⟨hhd.1, fun hmem => hhd.2 (List.mem_cons_of_mem _ hmem)⟩
      · exact ih (fun f hf => hinv _ (List.mem_cons_of_mem _ hf)) e he

theorem indexDoc_foldl_midinv {prev docId : ℕ} (hprev : prev < docId) :
    ∀ (L : List (Term × ℕ)) (ix : Index), (L.map Prod.fst).Nodup →
      (∀ p ∈ L, 1 ≤ p.2) → MidInv prev docId (L.map Prod.fst) ix →
      MidInv prev docId []
        (L.foldl (fun ix p => updateEntry ix p.1 docId (1 + Real.logb 10 (p.2 : ℝ))) ix)
  | [], ix, _, _, hinv => by simpa using hinv
  | (t, tf) :: L, ix, hnd, hpos, hinv => by
      simp only [List.map_cons, List.nodup_cons] at hnd
      have hw : (1 : ℝ) ≤ 1 + Real.logb 10 (tf : ℝ) := by
        have h1 : (1 : ℝ) ≤ (tf : ℝ) := by
          exact_mod_cast hpos _ (List.mem_cons_self _ _)
        have := Real.logb_nonneg (by norm_num : (1:ℝ) < 10) h1
        linarith
      refine indexDoc_foldl_midinv hprev L _ hnd.2
        (fun p hp => hpos _ (List.mem_cons_of_mem _ hp)) ?_
      exact updateEntry_midinv hinv hprev hw hnd.1

theorem indexDoc_inv {k : ℕ} {ix : Index} (h : IndexInv k ix) (words : List Term) :
    IndexInv (k + 1) (indexDoc ix (k + 1) words) := by
  refine @MidInv.toIndexInv k _ _ ?_
  exact indexDoc_foldl_midinv (Nat.lt_succ_self k) (counter words) ix
    (counter_keys_nodup words) counter_pos
    (h.toMid (Nat.le_succ k) _)

theorem indexInv_mono {b b' : ℕ} {ix : Index} (h : IndexInv b ix) (hb : b ≤ b') :
    IndexInv b' ix :=
  fun e he => entryInv_mono (h e he) hb

theorem create_foldl_inv :
    ∀ (corpus : List (String × List Char)) (start : ℕ) (ix : Index),
      IndexInv start ix →
      IndexInv (start + corpus.length)
        ((List.enumFrom start corpus).foldl
          (fun ix p => indexDoc ix (p.1 + 1) (clean_text p.2.2)) ix)
  | [], start, ix, h => by simpa using h
  | d :: corpus, start, ix, h => by
      have step : IndexInv (start + 1) (indexDoc ix (start + 1) (clean_text d.2)) :=
        indexDoc_inv h _
      have h2 := create_foldl_inv corpus (start + 1) _ step
      have hb : (start + 1) + corpus.length ≤ start + (d :: corpus).length := by
        simp only [List.length_cons]
        omega
      have h3 := indexInv_mono h2 hb
      simpa [List.enumFrom] using h3

theorem create_index_inv (corpus : List (String × List Char)) :
    IndexInv (create_index corpus).N (create_index corpus).index := by
  have h := create_foldl_inv corpus 0 [] (fun e he => absurd he (List.not_mem_nil e))
  simpa [create_index, List.enum] using h

/-- The data of `EntryInv` for an entry found by lookup in a built index. -/
theorem alookup_index_entry {corpus : List (String × List Char)} {t : Term}
    {e : Entry} (h : alookup (create_index corpus).index t = some e) :
    EntryInv (create_index corpus).N (t, e) :=
  create_index_inv corpus _ (alookup_mem h)

theorem entry_ids_nodup {b : ℕ} {e : Term × Entry} (h : EntryInv b e) :
    (e.2.2.map Prod.fst).Nodup := by
  haveI : IsTrans (ℕ × ℝ) (fun p q => p.1 < q.1) :=
    ⟨fun _ _ _ h h' => Nat.lt_trans h h'⟩
  have hpw : List.Pairwise (fun p q : ℕ × ℝ => p.1 < q.1) e.2.2 :=
    List.chain'_iff_pairwise.mp h.2.2.1
  exact (List.pairwise_map.mpr hpw).imp Nat.ne_of_lt

theorem entry_df_le {b : ℕ} {e : Term × Entry} (h : EntryInv b e) : e.2.1 ≤ b := by
  have hnd : (e.2.2.map Prod.fst).Nodup := entry_ids_nodup h
  have hsub : (e.2.2.map Prod.fst).toFinset ⊆ Finset.Icc 1 b := by
    intro d hd
    simp only [List.mem_toFinset, List.mem_map] at hd
    obtain ⟨p, hp, hpd⟩ := hd
    rw [Finset.mem_Icc, ← hpd]
    exact (h.2.2.2 p hp).1
  have hcard := Finset.card_le_card hsub
  rw [List.toFinset_card_of_nodup hnd, Nat.card_Icc, List.length_map] at hcard
  rw [h.1]
  omega

/-! ### Document lengths -/

theorem sumSq_post_keys :
    ∀ (ps dl : List (ℕ × ℝ)) (d : ℕ),
      d ∈ ((ps.foldl (fun dl p => bump dl p.1 (p.2 ^ 2)) dl).map Prod.fst) ↔
        d ∈ dl.map Prod.fst ∨ ∃ p ∈ ps, p.1 = d
  | [], dl, d => by simp
  | q :: ps, dl, d => by
      simp only [List.foldl_cons]
      rw [sumSq_post_keys ps _ d, bump_mem_keys]
      simp only [List.exists_mem_cons_iff]
      constructor
      · rintro ((rfl | h) | h)
        · exact Or.inr (Or.inl rfl)
        · exact Or.inl h
        · exact Or.inr (Or.inr h)
      · rintro (h | (rfl | h))
        · exact Or.inl (Or.inr h)
        · exact Or.inl (Or.inl rfl)
        · exact Or.inr h

theorem sumSq_post_pos :
    ∀ (ps dl : List (ℕ × ℝ)), (∀ p ∈ dl, 0 < p.2) → (∀ p ∈ ps, 1 ≤ p.2) →
      ∀ p ∈ ps.foldl (fun dl p => bump dl p.1 (p.2 ^ 2)) dl, 0 < p.2
  | [], dl, hdl, _ => by simpa using hdl
  | q :: ps, dl, hdl, hps => by
      simp only [List.foldl_cons]
      refine sumSq_post_pos ps _ ?_ (fun p hp => hps _ (List.mem_cons_of_mem _ hp))
      refine bump_values_pos hdl ?_
      have h1 : (1 : ℝ) ≤ q.2 := hps _ (List.mem_cons_self _ _)
      positivity

theorem sumSquares_foldl_keys :
    ∀ (ixl : List (Term × Entry)) (dl : List (ℕ × ℝ)) (d : ℕ),
      d ∈ ((ixl.foldl
          (fun dl e => e.2.2.foldl (fun dl p => bump dl p.1 (p.2 ^ 2)) dl) dl).map
            Prod.fst) ↔
        d ∈ dl.map Prod.fst ∨ ∃ e ∈ ixl, ∃ p ∈ e.2.2, p.1 = d
  | [], dl, d => by simp
  | f :: ixl, dl, d => by
      simp only [List.foldl_cons]
      rw [sumSquares_foldl_keys ixl _ d, sumSq_post_keys]
      simp only [List.exists_mem_cons_iff]
      exact or_assoc

theorem sumSquares_foldl_pos :
    ∀ (ixl : List (Term × Entry)) (dl : List (ℕ × ℝ)), (∀ p ∈ dl, 0 < p.2) →
      (∀ e ∈ ixl, ∀ p ∈ e.2.2, 1 ≤ p.2) →
      ∀ p ∈ ixl.foldl
          (fun dl e => e.2.2.foldl (fun dl p => bump dl p.1 (p.2 ^ 2)) dl) dl,
        0 < p.2
  | [], dl, hdl, _ => by simpa using hdl
  | f :: ixl, dl, hdl, hix => by
      simp only [List.foldl_cons]
      refine sumSquares_foldl_pos ixl _ ?_
        (fun e he => hix _ (List.mem_cons_of_mem _ he))
      exact sumSq_post_pos _ _ hdl (hix _ (List.mem_cons_self _ _))

theorem sumSquares_keys {ix : Index} {d : ℕ} :
    d ∈ (sumSquares ix).map Prod.fst ↔ docOccurs ix d := by
  rw [sumSquares, sumSquares_foldl_keys]
  simp [docOccurs]

theorem sumSquares_pos {ix : Index} (hw : ∀ e ∈ ix, ∀ p ∈ e.2.2, 1 ≤ p.2) :
    ∀ p ∈ sumSquares ix, 0 < p.2 :=
  sumSquares_foldl_pos ix [] (by simp) hw

theorem doc_lengths_lookup (corpus : List (String × List Char)) (d : ℕ) :
    alookup (create_index corpus).doc_lengths d =
      (alookup (sumSquares (create_index corpus).index) d).map Real.sqrt :=
  alookup_map_snd Real.sqrt _ d

theorem doc_lengths_isSome_iff (corpus : List (String × List Char)) (d : ℕ) :
    (alookup (create_index corpus).doc_lengths d).isSome ↔
      docOccurs (create_index corpus).index d := by
  have hmap : ∀ (o : Option ℝ), (o.map Real.sqrt).isSome = o.isSome := by
    intro o
    cases o <;> rfl
  rw [doc_lengths_lookup, hmap, alookup_isSome, sumSquares_keys]

theorem doc_lengths_pos (corpus : List (String × List Char)) :
    ∀ d v, alookup (create_index corpus).doc_lengths d = some v → 0 < v := by
  intro d v h
  rw [doc_lengths_lookup] at h
  obtain ⟨u, hu, hv⟩ := Option.map_eq_some'.mp h
  have hupos : 0 < u := by
    refine sumSquares_pos ?_ _ (alookup_mem hu)
    intro e he p hp
    exact ((create_index_inv corpus e he).2.2.2 p hp).2
  rw [← hv]
  exact Real.sqrt_pos.mpr hupos

/-! ### Query weights and scores -/

theorem entry_df_pos {b : ℕ} {e : Term × Entry} (h : EntryInv b e) : 1 ≤ e.2.1 := by
  rw [h.1]
  exact List.length_pos.mpr h.2.1

theorem q_weights0_nonneg (corpus : List (String × List Char)) (query : List Char) :
    ∀ p ∈ q_weights0 query (create_index corpus).index (create_index corpus).N,
      0 ≤ p.2 := by
  intro p hp
  rw [q_weights0] at hp
  obtain ⟨a, ha, hfa⟩ := List.mem_filterMap.mp hp
  rcases halook : alookup (create_index corpus).index a.1 with _ | e
  · rw [halook] at hfa
    exact absurd hfa (by simp)
  · rw [halook] at hfa
    simp only [Option.some.injEq] at hfa
    have hinv := alookup_index_entry halook
    have htf : (1 : ℝ) ≤ (a.2 : ℝ) := by exact_mod_cast counter_pos a ha
    have hlog1 : (0 : ℝ) ≤ Real.logb 10 (a.2 : ℝ) :=
      Real.logb_nonneg (by norm_num) htf
    have hdfN : (1 : ℝ) ≤ ((create_index corpus).N : ℝ) / (e.1 : ℝ) := by
      have h1 : (1 : ℕ) ≤ e.1 := entry_df_pos hinv
      have h2 : e.1 ≤ (create_index corpus).N := entry_df_le hinv
      rw [le_div_iff₀ (by exact_mod_cast h1 : (0:ℝ) < (e.1 : ℝ))]
      simpa using (by exact_mod_cast h2 : (e.1 : ℝ) ≤ ((create_index corpus).N : ℝ))
    have hlog2 : (0 : ℝ) ≤ Real.logb 10 (((create_index corpus).N : ℝ) / (e.1 : ℝ)) :=
      Real.logb_nonneg (by norm_num) hdfN
    rw [← hfa]
    exact mul_nonneg (by linarith) hlog2

theorem normalizeQ_nonneg {qw : List (Term × ℝ)} (h : ∀ p ∈ qw, 0 ≤ p.2) :
    ∀ p ∈ normalizeQ qw, 0 ≤ p.2 := by
  rw [normalizeQ]
  split
  · intro p hp
    obtain ⟨a, ha, hpa⟩ := List.mem_map.mp hp
    rw [← hpa]
    exact div_nonneg (h a ha) (Real.sqrt_nonneg _)
  · exact h

theorem scores_post_nonneg :
    ∀ (ps sc : List (ℕ × ℝ)) (qv : ℝ) (dl : List (ℕ × ℝ)),
      (∀ p ∈ sc, 0 ≤ p.2) → 0 ≤ qv → (∀ p ∈ ps, 0 ≤ p.2) →
      (∀ d, 0 ≤ (alookup dl d).getD 0) →
      ∀ p ∈ ps.foldl
          (fun sc q => bump sc q.1 (qv * (q.2 / (alookup dl q.1).getD 0))) sc,
        0 ≤ p.2
  | [], sc, qv, dl, hsc, _, _, _ => by simpa using hsc
  | q :: ps, sc, qv, dl, hsc, hqv, hps, hdl => by
      simp only [List.foldl_cons]
      refine scores_post_nonneg ps _ qv dl ?_ hqv
        (fun p hp => hps _ (List.mem_cons_of_mem _ hp)) hdl
      refine bump_values_nonneg hsc ?_
      exact mul_nonneg hqv (div_nonneg (hps _ (List.mem_cons_self _ _)) (hdl _))

theorem scoresOf_foldl_nonneg {ix : Index} {dl : List (ℕ × ℝ)}
    (hix : ∀ t e, alookup ix t = some e → ∀ p ∈ e.2, 0 ≤ p.2)
    (hdl : ∀ d, 0 ≤ (alookup dl d).getD 0) :
    ∀ (qw : List (Term × ℝ)) (sc : List (ℕ × ℝ)), (∀ p ∈ sc, 0 ≤ p.2) →
      (∀ p ∈ qw, 0 ≤ p.2) →
      ∀ p ∈ qw.foldl (fun sc p =>
          match alookup ix p.1 with
          | none => sc
          | some e => e.2.foldl
              (fun sc q => bump sc q.1 (p.2 * (q.2 / ((alookup dl q.1).getD 0)))) sc)
        sc, 0 ≤ p.2
  | [], sc, hsc, _ => by simpa using hsc
  | t :: qw, sc, hsc, hqw => by
      simp only [List.foldl_cons]
      rcases halook : alookup ix t.1 with _ | e
      · exact scoresOf_foldl_nonneg hix hdl qw sc hsc
          (fun p hp => hqw _ (List.mem_cons_of_mem _ hp))
      · refine scoresOf_foldl_nonneg hix hdl qw _ ?_
          (fun p hp => hqw _ (List.mem_cons_of_mem _ hp))
        exact scores_post_nonneg e.2 sc t.2 dl hsc
          (hqw _ (List.mem_cons_self _ _)) (hix _ _ halook) hdl

theorem scoresOf_nonneg {ix : Index} {dl : List (ℕ × ℝ)} {qw : List (Term × ℝ)}
    (hix : ∀ t e, alookup ix t = some e → ∀ p ∈ e.2, 0 ≤ p.2)
    (hdl : ∀ d, 0 ≤ (alookup dl d).getD 0)
    (hqw : ∀ p ∈ qw, 0 ≤ p.2) :
    ∀ p ∈ scoresOf qw ix dl, 0 ≤ p.2 :=
  scoresOf_foldl_nonneg hix hdl qw [] (by simp) hqw

theorem scores_post_nodup :
    ∀ (ps sc : List (ℕ × ℝ)) (qv : ℝ) (dl : List (ℕ × ℝ)),
      (sc.map Prod.fst).Nodup →
      ((ps.foldl
          (fun sc q => bump sc q.1 (qv * (q.2 / (alookup dl q.1).getD 0))) sc).map
        Prod.fst).Nodup
  | [], sc, _, _, hsc => by simpa using hsc
  | q :: ps, sc, qv, dl, hsc => by
      simp only [List.foldl_cons]
      exact scores_post_nodup ps _ qv dl (bump_keys_nodup hsc _ _)

theorem scoresOf_foldl_nodup {ix : Index} {dl : List (ℕ × ℝ)} :
    ∀ (qw : List (Term × ℝ)) (sc : List (ℕ × ℝ)), (sc.map Prod.fst).Nodup →
      ((qw.foldl (fun sc p =>
          match alookup ix p.1 with
          | none => sc
          | some e => e.2.foldl
              (fun sc q => bump sc q.1 (p.2 * (q.2 / ((alookup dl q.1).getD 0)))) sc)
        sc).map Prod.fst).Nodup
  | [], sc, hsc => by simpa using hsc
  | t :: qw, sc, hsc => by
      simp only [List.foldl_cons]
      rcases halook : alookup ix t.1 with _ | e
      · exact scoresOf_foldl_nodup qw sc hsc
      · exact scoresOf_foldl_nodup qw _ (scores_post_nodup e.2 sc t.2 dl hsc)

theorem scoresOf_keys_nodup (qw : List (Term × ℝ)) (ix : Index)
    (dl : List (ℕ × ℝ)) : ((scoresOf qw ix dl).map Prod.fst).Nodup :=
  scoresOf_foldl_nodup qw [] (by simp)

/-! ### Ranking -/

theorem rankedScores_sorted (query : List Char) (ix : Index) (dl : List (ℕ × ℝ))
    (N : ℕ) : List.Pairwise rankLE (rankedScores query ix dl N) :=
  List.sorted_insertionSort rankLE _

theorem rankedScores_perm (query : List Char) (ix : Index) (dl : List (ℕ × ℝ))
    (N : ℕ) :
    (rankedScores query ix dl N).Perm (scoresOf (normalizeQ (q_weights0 query ix N)) ix dl) :=
  List.perm_insertionSort rankLE _

theorem rankedScores_keys_nodup (query : List Char) (ix : Index)
    (dl : List (ℕ × ℝ)) (N : ℕ) :
    ((rankedScores query ix dl N).map Prod.fst).Nodup := by
  have hperm := (rankedScores_perm query ix dl N).map Prod.fst
  exact hperm.nodup_iff.mpr (scoresOf_keys_nodup _ ix dl)

theorem rankedScores_pairwise_strict (query : List Char) (ix : Index)
    (dl : List (ℕ × ℝ)) (N : ℕ) :
    List.Pairwise rankLT (rankedScores query ix dl N) := by
  have h1 := rankedScores_sorted query ix dl N
  have h2 : List.Pairwise (fun a b : ℕ × ℝ => a.1 ≠ b.1)
      (rankedScores query ix dl N) :=
    List.pairwise_map.mp (rankedScores_keys_nodup query ix dl N)
  refine (h1.and h2).imp ?_
  rintro a b ⟨hle | ⟨heq, hle⟩, hne⟩
  · exact Or.inl hle
  · exact Or.inr ⟨heq, lt_of_le_of_ne hle hne⟩

/-! ### Empty and out-of-vocabulary queries -/

theorem q_weights0_eq_nil {query : List Char} {ix : Index} {N : ℕ}
    (h : ∀ t ∈ clean_text query, alookup ix t = none) :
    q_weights0 query ix N = [] := by
  rw [q_weights0]
  refine List.filterMap_eq_nil_iff.mpr ?_
  intro a ha
  rw [h a.1 (counter_fst_mem a ha)]

theorem normalizeQ_nil : normalizeQ [] = [] := by
  rw [normalizeQ]
  split <;> simp

theorem scoresOf_nil (ix : Index) (dl : List (ℕ × ℝ)) :
    scoresOf [] ix dl = [] := rfl

theorem insertionSort_rankLE_nil : List.insertionSort rankLE [] = [] := rfl

theorem rank_query_oov {query : List Char} {ix : Index} {dl : List (ℕ × ℝ)}
    {dm : List (ℕ × String)} {N top_k : ℕ}
    (h : ∀ t ∈ clean_text query, alookup ix t = none) :
    rank_query query ix dl dm N top_k = [] := by
  rw [rank_query, rankedScores, q_weights0_eq_nil h, normalizeQ_nil,
    scoresOf_nil, insertionSort_rankLE_nil, List.take_nil, List.map_nil]

theorem rank_query_eq_take_map (query : List Char) (ix : Index)
    (dl : List (ℕ × ℝ)) (dm : List (ℕ × String)) (N top_k : ℕ) :
    rank_query query ix dl dm N top_k =
      ((rankedScores query ix dl N).take top_k).map
        (fun p => ((alookup dm p.1).getD "", p.2)) := rfl

theorem rank_query_length (query : List Char) (ix : Index) (dl : List (ℕ × ℝ))
    (dm : List (ℕ × String)) (N top_k : ℕ) :
    (rank_query query ix dl dm N top_k).length =
      min top_k (rankedScores query ix dl N).length := by
  rw [rank_query, List.length_map, List.length_take]

theorem rank_query_zero (query : List Char) (ix : Index) (dl : List (ℕ × ℝ))
    (dm : List (ℕ × String)) (N : ℕ) :
    rank_query query ix dl dm N 0 = [] := by
  rw [rank_query, List.take_zero, List.map_nil]

/-! ### Tokenizer idempotence -/

theorem keepChar_iff {c : Char} :
    keepChar c = true ↔
      (97 ≤ c.toNat ∧ c.toNat ≤ 122) ∨ (48 ≤ c.toNat ∧ c.toNat ≤ 57) := by
  simp [keepChar]

theorem isWs_iff {c : Char} :
    isWs c = true ↔
      c.toNat = 32 ∨ c.toNat = 9 ∨ c.toNat = 10 ∨
      c.toNat = 13 ∨ c.toNat = 11 ∨ c.toNat = 12 := by
  simp only [isWs, Bool.or_eq_true, decide_eq_true_eq]
  tauto

theorem keepChar_not_ws {c : Char} (h : keepChar c = true) : isWs c = false := by
  rcases keepChar_iff.mp h with h' | h' <;>
    simp only [isWs, Bool.or_eq_false_iff, decide_eq_false_iff_not] <;> omega

theorem pyLower_keep {c : Char} (h : keepChar c = true) : pyLower c = c := by
  rw [pyLower, if_neg]
  rcases keepChar_iff.mp h with h' | h' <;>
    simp only [Bool.and_eq_true, decide_eq_true_eq, not_and] <;> omega

theorem substChar_keep {c : Char} (h : keepChar c = true) : substChar c = c := by
  rw [substChar, if_pos]
  simp [h]

theorem substChar_cases (c : Char) :
    isWs (substChar c) = true ∨ keepChar (substChar c) = true := by
  rw [substChar]
  by_cases h : keepChar c || isWs c
  · rw [if_pos h]
    rcases Bool.or_eq_true_iff.mp h with h' | h'
    · exact Or.inr h'
    · exact Or.inl h'
  · rw [if_neg h]
    exact Or.inl (by decide)

theorem splitWsAux_tokens :
    ∀ (cs cur : List Char), (∀ c ∈ cur, keepChar c = true) →
      (∀ c ∈ cs, isWs c = true ∨ keepChar c = true) →
      ∀ t ∈ splitWsAux cur cs, t ≠ [] ∧ ∀ c ∈ t, keepChar c = true
  | [], cur, hcur, _ => by
      rw [splitWsAux]
      by_cases hc : cur = []
      · rw [if_pos hc]
        intro t ht
        exact absurd ht (List.not_mem_nil t)
      · rw [if_neg hc]
        intro t ht
        rw [List.mem_singleton] at ht
        rw [ht]
        refine ⟨fun hrev => hc (by simpa using List.reverse_eq_nil_iff.mp hrev), ?_⟩
        intro c hcm
        exact hcur c (List.mem_reverse.mp hcm)
  | c :: cs, cur, hcur, hcs => by
      rw [splitWsAux]
      by_cases hws : isWs c
      · rw [if_pos hws]
        by_cases hc : cur = []
        · rw [if_pos hc]
          exact splitWsAux_tokens cs [] (by simp)
            (fun d hd => hcs d (List.mem_cons_of_mem _ hd))
        · rw [if_neg hc]
          intro t ht
          rcases List.mem_cons.mp ht with ht | ht
          · rw [ht]
            refine ⟨fun hrev => hc (by simpa using List.reverse_eq_nil_iff.mp hrev), ?_⟩
            intro d hdm
            exact hcur d (List.mem_reverse.mp hdm)
          · exact splitWsAux_tokens cs [] (by simp)
              (fun d hd => hcs d (List.mem_cons_of_mem _ hd)) t ht
      · rw [if_neg hws]
        have hkeep : keepChar c = true := by
          rcases hcs c (List.mem_cons_self _ _) with h | h
          · exact absurd h hws
          · exact h
        refine splitWsAux_tokens cs (c :: cur) ?_
          (fun d hd => hcs d (List.mem_cons_of_mem _ hd))
        intro d hd
        rcases List.mem_cons.mp hd with hd | hd
        · rw [hd]
          exact hkeep
        · exact hcur d hd

theorem clean_text_tokens (x : List Char) :
    ∀ t ∈ clean_text x, t ≠ [] ∧ ∀ c ∈ t, keepChar c = true := by
  rw [clean_text]
  refine splitWsAux_tokens _ [] (by simp) ?_
  intro c hc
  obtain ⟨a, _, ha⟩ := List.mem_map.mp hc
  rw [← ha]
  exact substChar_cases a

theorem splitWsAux_word :
    ∀ (w cur rest : List Char), (∀ c ∈ w, keepChar c = true) →
      splitWsAux cur (w ++ rest) = splitWsAux (w.reverse ++ cur) rest
  | [], cur, rest, _ => by simp
  | c :: w, cur, rest, hw => by
      have hkeep : keepChar c = true := hw c (List.mem_cons_self _ _)
      rw [List.cons_append, splitWsAux, if_neg (by rw [keepChar_not_ws hkeep]; simp)]
      rw [splitWsAux_word w (c :: cur) rest (fun d hd => hw d (List.mem_cons_of_mem _ hd))]
      rw [List.reverse_cons, List.append_assoc, List.singleton_append]

theorem splitWsAux_joinSpace :
    ∀ (ts : List (List Char)), (∀ t ∈ ts, t ≠ [] ∧ ∀ c ∈ t, keepChar c = true) →
      splitWsAux [] (joinSpace ts) = ts
  | [], _ => rfl
  | [t], h => by
      have hw := splitWsAux_word t [] [] (h t (List.mem_singleton.mpr rfl)).2
      rw [List.append_nil] at hw
      rw [joinSpace, hw, splitWsAux, if_neg]
      · simp
      · simpa using (h t (List.mem_singleton.mpr rfl)).1
  | t :: t' :: ts, h => by
      rw [joinSpace, splitWsAux_word t [] _ (h t (List.mem_cons_self _ _)).2]
      rw [splitWsAux, if_pos (by decide), if_neg
        (by simpa using (h t (List.mem_cons_self _ _)).1)]
      rw [splitWsAux_joinSpace (t' :: ts) (fun u hu => h u (List.mem_cons_of_mem _ hu))]
      simp

theorem joinSpace_chars :
    ∀ (ts : List (List Char)), (∀ t ∈ ts, ∀ c ∈ t, keepChar c = true) →
      ∀ c ∈ joinSpace ts, keepChar c = true ∨ c = ' '
  | [], _ => by simp [joinSpace]
  | [t], h => by
      rw [joinSpace]
      intro c hc
      exact Or.inl (h t (List.mem_singleton.mpr rfl) c hc)
  | t :: t' :: ts, h => by
      rw [joinSpace]
      intro c hc
      rcases List.mem_append.mp hc with hc | hc
      · exact Or.inl (h t (List.mem_cons_self _ _) c hc)
      · rcases List.mem_cons.mp hc with hc | hc
        · exact Or.inr hc
        · exact joinSpace_chars (t' :: ts)
            (fun u hu => h u (List.mem_cons_of_mem _ hu)) c hc

theorem clean_map_id {y : List Char} (h : ∀ c ∈ y, keepChar c = true ∨ c = ' ') :
    (y.map pyLower).map substChar = y := by
  induction y with
  | nil => rfl
  | cons c y ih =>
    simp only [List.map_cons]
    have hc : pyLower c = c ∧ substChar c = c := by
      rcases h c (List.mem_cons_self _ _) with h' | h'
      · exact ⟨pyLower_keep h', substChar_keep h'⟩
      · rw [h']
        exact ⟨by decide, by decide⟩
    rw [hc.1, hc.2, ih (fun d hd => h d (List.mem_cons_of_mem _ hd))]

theorem clean_text_idem (x : List Char) :
    clean_text (joinSpace (clean_text x)) = clean_text x := by
  have htoks := clean_text_tokens x
  have hchars : ∀ c ∈ joinSpace (clean_text x), keepChar c = true ∨ c = ' ' :=
    joinSpace_chars _ (fun t ht => (htoks t ht).2)
  calc clean_text (joinSpace (clean_text x))
      = splitWsAux [] ((joinSpace (clean_text x) |>.map pyLower).map substChar) := rfl
    _ = splitWsAux [] (joinSpace (clean_text x)) := by rw [clean_map_id hchars]
    _ = clean_text x := splitWsAux_joinSpace _ htoks

/-! ### Further helper lemmas -/

theorem insertionSort_rankLE_cons (a : ℕ × ℝ) (l : List (ℕ × ℝ)) :
    List.insertionSort rankLE (a :: l) =
      List.orderedInsert rankLE a (List.insertionSort rankLE l) := rfl

theorem orderedInsert_rankLE_cons (a b : ℕ × ℝ) (l : List (ℕ × ℝ)) :
    List.orderedInsert rankLE a (b :: l) =
      if rankLE a b then a :: b :: l else b :: List.orderedInsert rankLE a l := rfl

theorem frac_mono_aux {a : ℝ} (ha : 1 ≤ a) :
    1 / Real.sqrt 3 < a / Real.sqrt (a ^ 2 + 1) := by
  have ha0 : 0 < a := lt_of_lt_of_le one_pos ha
  have hA : 0 < Real.sqrt (a ^ 2 + 1) := Real.sqrt_pos.mpr (by positivity)
  have h3 : 0 < Real.sqrt 3 := Real.sqrt_pos.mpr (by norm_num)
  rw [div_lt_div_iff₀ h3 hA]
  have h1 : Real.sqrt (a ^ 2 + 1) ≤ Real.sqrt (2 * a ^ 2) :=
    Real.sqrt_le_sqrt (by nlinarith)
  have h2 : Real.sqrt (2 * a ^ 2) = Real.sqrt 2 * a := by
    rw [Real.sqrt_mul (by norm_num), Real.sqrt_sq ha0.le]
  have h4 : Real.sqrt 2 * a < Real.sqrt 3 * a := by
    refine mul_lt_mul_of_pos_right ?_ ha0
    exact Real.sqrt_lt_sqrt (by norm_num) (by norm_num)
  calc 1 * Real.sqrt (a ^ 2 + 1) = Real.sqrt (a ^ 2 + 1) := one_mul _
    _ ≤ Real.sqrt 2 * a := h2 ▸ h1
    _ < Real.sqrt 3 * a := h4
    _ = a * Real.sqrt 3 := mul_comm _ _

theorem rank_query_mem_scores {query : List Char} {ix : Index} {dl : List (ℕ × ℝ)}
    {dm : List (ℕ × String)} {N top_k : ℕ} :
    ∀ p ∈ rank_query query ix dl dm N top_k,
      ∃ q ∈ scoresOf (normalizeQ (q_weights0 query ix N)) ix dl, p.2 = q.2 := by
  intro p hp
  rw [rank_query] at hp
  obtain ⟨q, hq, hpq⟩ := List.mem_map.mp hp
  have hq1 : q ∈ rankedScores query ix dl N := List.mem_of_mem_take hq
  have hq2 := (rankedScores_perm query ix dl N).subset hq1
  exact ⟨q, hq2, by rw [← hpq]⟩

theorem index_weights_nonneg (corpus : List (String × List Char)) :
    ∀ (t : Term) (e : Entry), alookup (create_index corpus).index t = some e →
      ∀ p ∈ e.2, 0 ≤ p.2 := by
  intro t e h p hp
  have h1 := ((alookup_index_entry h).2.2.2 p hp).2
  linarith

theorem doc_lengths_getD_nonneg (corpus : List (String × List Char)) :
    ∀ d, 0 ≤ (alookup (create_index corpus).doc_lengths d).getD 0 := by
  intro d
  rcases h : alookup (create_index corpus).doc_lengths d with _ | v
  · simp
  · simpa using (doc_lengths_pos corpus d v h).le

/-! ### The claims -/

/-- C1: on the corpus doc1 = "the cat sat", doc2 = "the dog sat",
doc3 = "cat dog cat" (N = 3), `rank_query "cat" index doc_lengths doc_map 3 10`
returns exactly `[("doc3", s3), ("doc1", s1)]` with `s3 > s1 > 0`
(in particular doc2 does not appear). -/
theorem claim_C1 : ∃ s3 s1 : ℝ,
    rank_query "cat".data (create_index corpusCats).index
        (create_index corpusCats).doc_lengths (create_index corpusCats).doc_map
        (create_index corpusCats).N 10 =
      [("doc3", s3), ("doc1", s1)] ∧ s1 < s3 ∧ 0 < s1 := by
  have hw1 : (1 : ℝ) + Real.logb 10 ((1:ℕ):ℝ) = 1 := by
    norm_num [Real.logb_one]
  have hqv_pos : 0 < (1 + Real.logb 10 ((1:ℕ):ℝ)) *
      Real.logb 10 (((3:ℕ):ℝ) / ((2:ℕ):ℝ)) := by
    rw [hw1, one_mul]
    refine Real.logb_pos (by norm_num) ?_
    norm_num
  have hq : q_weights0 "cat".data (create_index corpusCats).index
      (create_index corpusCats).N =
      [(['c','a','t'],
        (1 + Real.logb 10 ((1:ℕ):ℝ)) * Real.logb 10 (((3:ℕ):ℝ) / ((2:ℕ):ℝ)))] := rfl
  have hnorm : qnorm [(['c','a','t'],
      (1 + Real.logb 10 ((1:ℕ):ℝ)) * Real.logb 10 (((3:ℕ):ℝ) / ((2:ℕ):ℝ)))] =
      (1 + Real.logb 10 ((1:ℕ):ℝ)) * Real.logb 10 (((3:ℕ):ℝ) / ((2:ℕ):ℝ)) := by
    rw [qnorm]
    simp only [List.map_cons, List.map_nil, List.sum_cons, List.sum_nil, add_zero]
    exact Real.sqrt_sq hqv_pos.le
  have hnq : normalizeQ [(['c','a','t'],
      (1 + Real.logb 10 ((1:ℕ):ℝ)) * Real.logb 10 (((3:ℕ):ℝ) / ((2:ℕ):ℝ)))] =
      [(['c','a','t'], 1)] := by
    rw [normalizeQ, hnorm, if_pos hqv_pos]
    simp only [List.map_cons, List.map_nil]
    rw [div_self hqv_pos.ne']
  have hsc : scoresOf [(['c','a','t'], 1)] (create_index corpusCats).index
      (create_index corpusCats).doc_lengths =
      [(1, 0 + 1 * ((1 + Real.logb 10 ((1:ℕ):ℝ)) /
            Real.sqrt (((0 + (1 + Real.logb 10 ((1:ℕ):ℝ)) ^ 2) +
              (1 + Real.logb 10 ((1:ℕ):ℝ)) ^ 2) + (1 + Real.logb 10 ((1:ℕ):ℝ)) ^ 2))),
       (3, 0 + 1 * ((1 + Real.logb 10 ((2:ℕ):ℝ)) /
            Real.sqrt ((0 + (1 + Real.logb 10 ((2:ℕ):ℝ)) ^ 2) +
              (1 + Real.logb 10 ((1:ℕ):ℝ)) ^ 2)))] := rfl
  have e1 : (0 : ℝ) + 1 * ((1 + Real.logb 10 ((1:ℕ):ℝ)) /
        Real.sqrt (((0 + (1 + Real.logb 10 ((1:ℕ):ℝ)) ^ 2) +
          (1 + Real.logb 10 ((1:ℕ):ℝ)) ^ 2) + (1 + Real.logb 10 ((1:ℕ):ℝ)) ^ 2)) =
      1 / Real.sqrt 3 := by
    rw [hw1]
    norm_num
  have e3 : (0 : ℝ) + 1 * ((1 + Real.logb 10 ((2:ℕ):ℝ)) /
        Real.sqrt ((0 + (1 + Real.logb 10 ((2:ℕ):ℝ)) ^ 2) +
          (1 + Real.logb 10 ((1:ℕ):ℝ)) ^ 2)) =
      (1 + Real.logb 10 2) / Real.sqrt ((1 + Real.logb 10 2) ^ 2 + 1) := by
    rw [hw1]
    norm_num
  have ha : (1 : ℝ) ≤ 1 + Real.logb 10 2 := by
    have h0 := Real.logb_nonneg (by norm_num : (1:ℝ) < 10) (by norm_num : (1:ℝ) ≤ 2)
    linarith
  have hlt : ((0 : ℝ) + 1 * ((1 + Real.logb 10 ((1:ℕ):ℝ)) /
        Real.sqrt (((0 + (1 + Real.logb 10 ((1:ℕ):ℝ)) ^ 2) +
          (1 + Real.logb 10 ((1:ℕ):ℝ)) ^ 2) + (1 + Real.logb 10 ((1:ℕ):ℝ)) ^ 2))) <
      ((0 : ℝ) + 1 * ((1 + Real.logb 10 ((2:ℕ):ℝ)) /
        Real.sqrt ((0 + (1 + Real.logb 10 ((2:ℕ):ℝ)) ^ 2) +
          (1 + Real.logb 10 ((1:ℕ):ℝ)) ^ 2))) := by
    rw [e1, e3]
    exact frac_mono_aux ha
  have hsort : List.insertionSort rankLE
      [(1, 0 + 1 * ((1 + Real.logb 10 ((1:ℕ):ℝ)) /
            Real.sqrt (((0 + (1 + Real.logb 10 ((1:ℕ):ℝ)) ^ 2) +
              (1 + Real.logb 10 ((1:ℕ):ℝ)) ^ 2) + (1 + Real.logb 10 ((1:ℕ):ℝ)) ^ 2))),
       (3, 0 + 1 * ((1 + Real.logb 10 ((2:ℕ):ℝ)) /
            Real.sqrt ((0 + (1 + Real.logb 10 ((2:ℕ):ℝ)) ^ 2) +
              (1 + Real.logb 10 ((1:ℕ):ℝ)) ^ 2)))] =
      [(3, 0 + 1 * ((1 + Real.logb 10 ((2:ℕ):ℝ)) /
            Real.sqrt ((0 + (1 + Real.logb 10 ((2:ℕ):ℝ)) ^ 2) +
              (1 + Real.logb 10 ((1:ℕ):ℝ)) ^ 2))),
       (1, 0 + 1 * ((1 + Real.logb 10 ((1:ℕ):ℝ)) /
            Real.sqrt (((0 + (1 + Real.logb 10 ((1:ℕ):ℝ)) ^ 2) +
              (1 + Real.logb 10 ((1:ℕ):ℝ)) ^ 2) + (1 + Real.logb 10 ((1:ℕ):ℝ)) ^ 2)))] := by
    rw [insertionSort_rankLE_cons, insertionSort_rankLE_cons, insertionSort_rankLE_nil,
      List.orderedInsert_nil, orderedInsert_rankLE_cons, if_neg, List.orderedInsert_nil]
    rintro (h | ⟨h, _⟩)
    · exact absurd hlt (not_lt.mpr h.le)
    · exact absurd h (ne_of_lt hlt)
  refine ⟨_, _, ?_, hlt, ?_⟩
  · rw [rank_query_eq_take_map, rankedScores, hq, hnq, hsc, hsort]
    rfl
  · rw [e1]
    positivity

/-- C2 counterexample: on the corpus {d1 = "a"} with query "a" the single
query term has idf `log10(1/1) = 0`, the query norm is 0, and yet
`rank_query` returns `[("d1", 0)]` — a pair with score exactly 0 and a
nonempty result for a norm-0 query, contradicting the claim that every
returned score is nonzero and that a norm-0 query yields an empty list. -/
theorem claim_C2_counterexample :
    rank_query ['a'] (create_index corpusA).index (create_index corpusA).doc_lengths
        (create_index corpusA).doc_map (create_index corpusA).N 1 = [("d1", 0)] ∧
    qnorm (q_weights0 ['a'] (create_index corpusA).index (create_index corpusA).N) = 0 := by
  have hqv : ((1 : ℝ) + Real.logb 10 ((1:ℕ):ℝ)) *
      Real.logb 10 (((1:ℕ):ℝ) / ((1:ℕ):ℝ)) = 0 := by
    norm_num [Real.logb_one]
  have hq : q_weights0 ['a'] (create_index corpusA).index (create_index corpusA).N =
      [(['a'], ((1 : ℝ) + Real.logb 10 ((1:ℕ):ℝ)) *
        Real.logb 10 (((1:ℕ):ℝ) / ((1:ℕ):ℝ)))] := rfl
  have hq0 : q_weights0 ['a'] (create_index corpusA).index (create_index corpusA).N =
      [(['a'], (0:ℝ))] := by
    rw [hq, hqv]
  have hnormv : qnorm [(['a'], (0:ℝ))] = 0 := by
    rw [qnorm]
    norm_num [Real.sqrt_zero]
  have hnq : normalizeQ [(['a'], (0:ℝ))] = [(['a'], (0:ℝ))] := by
    rw [normalizeQ, hnormv, if_neg (lt_irrefl 0)]
  have hsc : scoresOf [(['a'], (0:ℝ))] (create_index corpusA).index
      (create_index corpusA).doc_lengths =
      [(1, 0 + 0 * ((1 + Real.logb 10 ((1:ℕ):ℝ)) /
        Real.sqrt (0 + (1 + Real.logb 10 ((1:ℕ):ℝ)) ^ 2)))] := rfl
  have hval : (0:ℝ) + 0 * ((1 + Real.logb 10 ((1:ℕ):ℝ)) /
      Real.sqrt (0 + (1 + Real.logb 10 ((1:ℕ):ℝ)) ^ 2)) = 0 := by
    norm_num
  have hsc0 : scoresOf [(['a'], (0:ℝ))] (create_index corpusA).index
      (create_index corpusA).doc_lengths = [(1, (0:ℝ))] := by
    rw [hsc, hval]
  have hsort : List.insertionSort rankLE [(1, (0:ℝ))] = [(1, (0:ℝ))] := by
    rw [insertionSort_rankLE_cons, insertionSort_rankLE_nil, List.orderedInsert_nil]
  constructor
  · rw [rank_query_eq_take_map, rankedScores, hq0, hnq, hsc0, hsort]
    rfl
  · rw [hq0]
    exact hnormv

/-- C2 amended: every `(label, score)` pair returned by `rank_query` on a
`create_index` bundle has a nonnegative — possibly zero — score; the result
is empty when no query term occurs in the index (empty or all-out-of-vocabulary
query), but a query whose matched terms all have idf 0 can return documents
with score exactly 0. -/
theorem claim_C2_amended :
    ∀ (corpus : List (String × List Char)) (query : List Char) (top_k : ℕ),
      (∀ p ∈ rank_query query (create_index corpus).index
          (create_index corpus).doc_lengths (create_index corpus).doc_map
          (create_index corpus).N top_k, 0 ≤ p.2) ∧
      ((∀ t ∈ clean_text query, alookup (create_index corpus).index t = none) →
        rank_query query (create_index corpus).index
          (create_index corpus).doc_lengths (create_index corpus).doc_map
          (create_index corpus).N top_k = []) := by
  intro corpus query top_k
  constructor
  · intro p hp
    obtain ⟨q, hq, hpq⟩ := rank_query_mem_scores p hp
    rw [hpq]
    refine scoresOf_nonneg (index_weights_nonneg corpus)
      (doc_lengths_getD_nonneg corpus) ?_ q hq
    exact normalizeQ_nonneg (q_weights0_nonneg corpus query)
  · intro h
    exact rank_query_oov h

/-- C2 amended witness: the all-out-of-vocabulary query "b" on the
one-document corpus {d1 = "a"} returns the empty list. -/
theorem claim_C2_witness :
    rank_query ['b'] (create_index corpusA).index (create_index corpusA).doc_lengths
        (create_index corpusA).doc_map (create_index corpusA).N 5 = [] :=
  (claim_C2_amended corpusA ['b'] 5).2 (by
    intro t ht
    have he : clean_text ['b'] = [['b']] := rfl
    rw [he, List.mem_singleton] at ht
    rw [ht]
    rfl)

/-- C3 counterexample: on a corpus whose single document has zero tokens,
`N = 1` but `doc_lengths` has no entry at all for document 1 (rather than an
entry with value 0 as the claim requires). -/
theorem claim_C3_counterexample :
    (create_index corpusEmptyDoc).N = 1 ∧
    alookup (create_index corpusEmptyDoc).doc_lengths 1 = none :=
  ⟨rfl, rfl⟩

/-- C3 amended: `doc_lengths` has an entry exactly for the document ids that
occur in some postings list (documents with at least one posting); every
stored length is strictly positive.  A document with zero postings has no
entry rather than an entry of value 0. -/
theorem claim_C3_amended :
    ∀ (corpus : List (String × List Char)) (d : ℕ),
      ((alookup (create_index corpus).doc_lengths d).isSome ↔
        docOccurs (create_index corpus).index d) ∧
      (∀ v, alookup (create_index corpus).doc_lengths d = some v → 0 < v) :=
  fun corpus d =>
    ⟨doc_lengths_isSome_iff corpus d, fun v => doc_lengths_pos corpus d v⟩

/-- C3 amended witness: on the corpus {d1 = "a"} the stored length of
document 1 is positive. -/
theorem claim_C3_witness :
    0 < Real.sqrt (0 + (1 + Real.logb 10 ((1:ℕ):ℝ)) ^ 2) :=
  (claim_C3_amended corpusA 1).2 _ rfl

/-- C4: for every corpus, query and `top_k`, the result of `rank_query` has
length `min top_k (number of collected documents)` (hence at most `top_k`,
with no padding when fewer are collected), the ranked score list is strictly
sorted by descending score with ascending document id tie-break, the returned
scores are non-increasing, and `top_k = 0` yields `[]`. -/
theorem claim_C4 :
    ∀ (corpus : List (String × List Char)) (query : List Char) (top_k : ℕ),
      (rank_query query (create_index corpus).index (create_index corpus).doc_lengths
          (create_index corpus).doc_map (create_index corpus).N top_k).length =
        min top_k (rankedScores query (create_index corpus).index
          (create_index corpus).doc_lengths (create_index corpus).N).length ∧
      List.Pairwise rankLT (rankedScores query (create_index corpus).index
        (create_index corpus).doc_lengths (create_index corpus).N) ∧
      List.Pairwise (fun a b : String × ℝ => b.2 ≤ a.2)
        (rank_query query (create_index corpus).index (create_index corpus).doc_lengths
          (create_index corpus).doc_map (create_index corpus).N top_k) ∧
      rank_query query (create_index corpus).index (create_index corpus).doc_lengths
          (create_index corpus).doc_map (create_index corpus).N top_k =
        ((rankedScores query (create_index corpus).index
            (create_index corpus).doc_lengths (create_index corpus).N).take top_k).map
          (fun p => ((alookup (create_index corpus).doc_map p.1).getD "", p.2)) ∧
      rank_query query (create_index corpus).index (create_index corpus).doc_lengths
        (create_index corpus).doc_map (create_index corpus).N 0 = [] := by
  intro corpus query top_k
  refine ⟨rank_query_length _ _ _ _ _ _, rankedScores_pairwise_strict _ _ _ _, ?_,
    rank_query_eq_take_map _ _ _ _ _ _, rank_query_zero _ _ _ _ _⟩
  rw [rank_query_eq_take_map]
  refine List.pairwise_map.mpr ?_
  have h1 : List.Pairwise rankLE ((rankedScores query (create_index corpus).index
      (create_index corpus).doc_lengths (create_index corpus).N).take top_k) :=
    (rankedScores_sorted query _ _ _).sublist (List.take_sublist _ _)
  refine h1.imp ?_
  rintro a b (h | ⟨h, _⟩)
  · exact h.le
  · exact le_of_eq h.symm

/-- C5: every index entry of a `create_index` bundle is self-consistent —
the stored document frequency equals the length of the postings list, equals
the number of distinct document ids in it, and is at least 1; and `N` is the
number of input documents. -/
theorem claim_C5 :
    ∀ (corpus : List (String × List Char)),
      (∀ (t : Term) (e : Entry), alookup (create_index corpus).index t = some e →
        e.1 = e.2.length ∧ e.1 = (e.2.map Prod.fst).dedup.length ∧ 1 ≤ e.1) ∧
      (create_index corpus).N = corpus.length := by
  intro corpus
  refine ⟨?_, rfl⟩
  intro t e h
  have hinv := alookup_index_entry h
  have hnd := entry_ids_nodup hinv
  refine ⟨hinv.1, ?_, entry_df_pos hinv⟩
  rw [List.dedup_eq_self.mpr hnd, List.length_map]
  exact hinv.1

/-- C5 witness: the entry of term "a" in the index of the corpus
{d1 = "a"}. -/
theorem claim_C5_witness :
    (1 : ℕ) = ([((1:ℕ), 1 + Real.logb 10 ((1:ℕ):ℝ))] : List (ℕ × ℝ)).length ∧
    (1 : ℕ) =
      (([((1:ℕ), 1 + Real.logb 10 ((1:ℕ):ℝ))] : List (ℕ × ℝ)).map Prod.fst).dedup.length ∧
    1 ≤ (1 : ℕ) :=
  (claim_C5 corpusA).1 ['a'] (1, [(1, 1 + Real.logb 10 ((1:ℕ):ℝ))]) rfl

/-- C6: every document id occurring in any postings list of a `create_index`
bundle has a `doc_lengths` entry, and that entry is strictly positive — so
the division `d_w / doc_lengths[doc_id]` in `rank_query` never sees a zero
or missing denominator. -/
theorem claim_C6 :
    ∀ (corpus : List (String × List Char)) (t : Term) (e : Entry),
      alookup (create_index corpus).index t = some e →
      ∀ p ∈ e.2,
        (alookup (create_index corpus).doc_lengths p.1).isSome = true ∧
        0 < (alookup (create_index corpus).doc_lengths p.1).getD 0 := by
  intro corpus t e h p hp
  have hocc : docOccurs (create_index corpus).index p.1 :=
    ⟨(t, e), alookup_mem h, p, hp, rfl⟩
  have hsome := (doc_lengths_isSome_iff corpus p.1).mpr hocc
  rcases hlook : alookup (create_index corpus).doc_lengths p.1 with _ | v
  · rw [hlook] at hsome
    simp at hsome
  · exact ⟨rfl, doc_lengths_pos corpus p.1 v hlook⟩

/-- C6 witness: document 1 of the corpus {d1 = "a"}, which occurs in the
postings of term "a", has a positive `doc_lengths` entry. -/
theorem claim_C6_witness :
    (alookup (create_index corpusA).doc_lengths 1).isSome = true ∧
    0 < (alookup (create_index corpusA).doc_lengths 1).getD 0 :=
  claim_C6 corpusA ['a'] (1, [(1, 1 + Real.logb 10 ((1:ℕ):ℝ))]) rfl
    (1, 1 + Real.logb 10 ((1:ℕ):ℝ)) (List.mem_singleton.mpr rfl)

/-- C7: an empty corpus builds an index with no terms and every query on it
returns `[]`; and on any corpus, a query all of whose tokens are absent from
the index returns `[]` — no exception in either case (the embedding is
total). -/
theorem claim_C7 :
    (create_index []).index = [] ∧
    (∀ (query : List Char) (top_k : ℕ),
      rank_query query (create_index []).index (create_index []).doc_lengths
        (create_index []).doc_map (create_index []).N top_k = []) ∧
    (∀ (corpus : List (String × List Char)) (query : List Char) (top_k : ℕ),
      (∀ t ∈ clean_text query, alookup (create_index corpus).index t = none) →
      rank_query query (create_index corpus).index (create_index corpus).doc_lengths
        (create_index corpus).doc_map (create_index corpus).N top_k = []) := by
  refine ⟨rfl, ?_, ?_⟩
  · intro query top_k
    exact rank_query_oov (fun t _ => rfl)
  · intro corpus query top_k h
    exact rank_query_oov h

/-- C7 witness: the out-of-vocabulary query "c" on the corpus {d1 = "a"}
returns the empty list. -/
theorem claim_C7_witness :
    rank_query ['c'] (create_index corpusA).index (create_index corpusA).doc_lengths
        (create_index corpusA).doc_map (create_index corpusA).N 7 = [] :=
  claim_C7.2.2 corpusA ['c'] 7 (by
    intro t ht
    have he : clean_text ['c'] = [['c']] := rfl
    rw [he, List.mem_singleton] at ht
    rw [ht]
    rfl)

/-- C8: tokenization is idempotent on its own output — re-tokenizing the
space-join of `clean_text x` gives back `clean_text x`. -/
theorem claim_C8 :
    ∀ x : List Char, clean_text (joinSpace (clean_text x)) = clean_text x :=
  clean_text_idem

/-- C9: index construction and ranking are deterministic — equal corpora,
queries and cutoffs give equal bundles and equal result lists. -/
theorem claim_C9 :
    ∀ (c1 c2 : List (String × List Char)) (q1 q2 : List Char) (k1 k2 : ℕ),
      c1 = c2 → q1 = q2 → k1 = k2 →
      create_index c1 = create_index c2 ∧
      rank_query q1 (create_index c1).index (create_index c1).doc_lengths
          (create_index c1).doc_map (create_index c1).N k1 =
        rank_query q2 (create_index c2).index (create_index c2).doc_lengths
          (create_index c2).doc_map (create_index c2).N k2 := by
  intro c1 c2 q1 q2 k1 k2 h1 h2 h3
  subst h1
  subst h2
  subst h3
  exact ⟨rfl, rfl⟩

/-- C9 witness: determinism instantiated on the corpus {d1 = "a"} with
query "a" and `top_k = 1`. -/
theorem claim_C9_witness :
    create_index corpusA = create_index corpusA ∧
    rank_query ['a'] (create_index corpusA).index (create_index corpusA).doc_lengths
        (create_index corpusA).doc_map (create_index corpusA).N 1 =
      rank_query ['a'] (create_index corpusA).index (create_index corpusA).doc_lengths
        (create_index corpusA).doc_map (create_index corpusA).N 1 :=
  claim_C9 corpusA corpusA ['a'] ['a'] 1 1 rfl rfl rfl

/-- C10: every postings list in a `create_index` bundle is strictly
increasing in document id, hence sorted and duplicate-free. -/
theorem claim_C10 :
    ∀ (corpus : List (String × List Char)) (t : Term) (e : Entry),
      alookup (create_index corpus).index t = some e →
      List.Pairwise (fun p q : ℕ × ℝ => p.1 < q.1) e.2 ∧
      (e.2.map Prod.fst).Nodup := by
  intro corpus t e h
  have hinv := alookup_index_entry h
  haveI : IsTrans (ℕ × ℝ) (fun p q => p.1 < q.1) :=
    ⟨fun _ _ _ h h' => Nat.lt_trans h h'⟩
  exact ⟨List.chain'_iff_pairwise.mp hinv.2.2.1, entry_ids_nodup hinv⟩

/-- C10 witness: the postings list of term "a" in the corpus {d1 = "a"}. -/
theorem claim_C10_witness :
    List.Pairwise (fun p q : ℕ × ℝ => p.1 < q.1)
      [((1:ℕ), 1 + Real.logb 10 ((1:ℕ):ℝ))] ∧
    (([((1:ℕ), 1 + Real.logb 10 ((1:ℕ):ℝ))] : List (ℕ × ℝ)).map Prod.fst).Nodup :=
  claim_C10 corpusA ['a'] (1, [(1, 1 + Real.logb 10 ((1:ℕ):ℝ))]) rfl

end Frontend
